import Mathlib

/-!
Verification of the audio-extraction pipeline of the AI-Chinese-subtitle
generation tool.  The definitions below are a shallow embedding of the
worker code in `src/unnamed/part_000` (WAV encoder, chunk planner,
downmixer, silence gate, orchestrating `extract`) and of the empty-result
check in `src/App.tsx`.  Float32/float arithmetic of the source is
modelled with exact rationals; byte buffers are lists of naturals < 256.
-/

namespace AudioPipeline

/-- Little-endian serialization of `v` into `nbytes` bytes, as performed by
`DataView.setUint16`/`setUint32` with `littleEndian = true` (the value is
taken modulo `2^(8*nbytes)`). -/
def toBytesLE : ℕ → ℕ → List ℕ
  | 0, _ => []
  | n + 1, v => (v % 256) :: toBytesLE n (v / 256)

/-- The worker helper `writeString`: one byte per character, the character
code (`charCodeAt`) of each character of the string. -/
def strBytes (s : String) : List ℕ := s.toList.map Char.toNat

/-- Clamping of a sample to `[-1, 1]`: `Math.max(-1, Math.min(1, x))`. -/
def clamp (x : ℚ) : ℚ := max (-1) (min 1 x)

/-- Truncation toward zero, the integer conversion `DataView.setInt16`
applies to its numeric argument (ToInt16 first truncates toward zero). -/
def qtrunc (q : ℚ) : ℤ := if 0 ≤ q then ⌊q⌋ else ⌈q⌉

/-- The per-sample conversion of `encodeWav`:
`s < 0 ? s * 0x8000 : s * 0x7FFF` applied to the clamped sample, then
truncated toward zero by `setInt16`. -/
def toInt16 (x : ℚ) : ℤ :=
  if clamp x < 0 then qtrunc (clamp x * 32768) else qtrunc (clamp x * 32767)

/-- The two bytes `setInt16(·, v, true)` stores: the value is wrapped
modulo `2^16` (two's complement) and laid out little-endian. -/
def int16LE (v : ℤ) : List ℕ := toBytesLE 2 (v % 65536).toNat

/-- The worker function `encodeWav(samples, sampleRate)`: the 44-byte
RIFF/WAVE header followed by the 16-bit little-endian PCM data, one
converted sample per input sample. -/
def encodeWav (samples : List ℚ) (sampleRate : ℕ) : List ℕ :=
  strBytes "RIFF" ++
  toBytesLE 4 (36 + samples.length * 2) ++
  strBytes "WAVE" ++
  strBytes "fmt " ++
  toBytesLE 4 16 ++
  toBytesLE 2 1 ++
  toBytesLE 2 1 ++
  toBytesLE 4 sampleRate ++
  toBytesLE 4 (sampleRate * 2) ++
  toBytesLE 2 2 ++
  toBytesLE 2 16 ++
  strBytes "data" ++
  toBytesLE 4 (samples.length * 2) ++
  (samples.map (fun s => int16LE (toInt16 s))).flatten

theorem toBytesLE_length (n v : ℕ) : (toBytesLE n v).length = n := by
  induction n generalizing v with
  | zero => rfl
  | succ n ih => simp [toBytesLE, ih]

theorem int16LE_length (v : ℤ) : (int16LE v).length = 2 := toBytesLE_length 2 _

theorem encodeWav_data_length (samples : List ℚ) :
    ((samples.map (fun s => int16LE (toInt16 s))).flatten).length = samples.length * 2 := by
  induction samples with
  | nil => rfl
  | cons a l ih =>
      simp only [List.map_cons, List.flatten_cons, List.length_append, ih, int16LE_length,
        List.length_cons]
      ring

theorem strBytes_riff : strBytes "RIFF" = [82, 73, 70, 70] := rfl

theorem strBytes_wave : strBytes "WAVE" = [87, 65, 86, 69] := rfl

theorem strBytes_fmt : strBytes "fmt " = [102, 109, 116, 32] := rfl

theorem strBytes_data : strBytes "data" = [100, 97, 116, 97] := rfl

theorem encodeWav_length (samples : List ℚ) (sampleRate : ℕ) :
    (encodeWav samples sampleRate).length = 44 + samples.length * 2 := by
  rw [encodeWav, strBytes_riff, strBytes_wave, strBytes_fmt, strBytes_data]
  simp only [List.length_append, toBytesLE_length, encodeWav_data_length, List.length_cons,
    List.length_nil]

theorem peel (l a b : List ℕ) (off k : ℕ) (hl : l.drop off = a ++ b) (ha : a.length = k) :
    (l.drop off).take k = a ∧ l.drop (off + k) = b := by
  constructor
  · rw [hl, ← ha, List.take_left]
  · have h : l.drop (off + k) = (l.drop off).drop k := by
      rw [List.drop_drop, Nat.add_comm]
    rw [h, hl, ← ha, List.drop_left]

theorem pcm_extract (f : ℚ → List ℕ) (hf : ∀ s, (f s).length = 2) :
    ∀ (samples : List ℚ) (i : ℕ), i < samples.length →
      (((samples.map f).flatten).drop (2 * i)).take 2 = f (samples.getD i 0) := by
  intro samples
  induction samples with
  | nil => intro i hi; simp at hi
  | cons a l ih =>
      intro i hi
      cases i with
      | zero =>
          simp only [List.map_cons, List.flatten_cons, Nat.mul_zero, List.drop_zero]
          rw [← hf a, List.take_left]
          rfl
      | succ j =>
          have harith : 2 * (j + 1) = 2 + 2 * j := by ring
          simp only [List.map_cons, List.flatten_cons, harith]
          have hfa : (f a ++ (l.map f).flatten).drop 2 = (l.map f).flatten := by
            rw [← hf a, List.drop_left]
          have hd : ((f a ++ (l.map f).flatten).drop (2 + 2 * j)) =
              ((l.map f).flatten).drop (2 * j) := by
            rw [← List.drop_drop, hfa]
          rw [hd]
          exact ih j (by simpa using hi)

/-- C1: `encodeWav` produces a byte sequence of length `44 + 2·n` whose
44-byte header is byte-exact per the spec table (RIFF/ChunkSize/WAVE/fmt /
Subchunk1Size 16/PCM/mono/sampleRate/byte rate/block align 2/16 bits/
data/Subchunk2Size); the empty-array case is the instance `samples = []`,
giving a 44-byte blob with ChunkSize 36 and Subchunk2Size 0. -/
theorem encodeWav_header_bytes (samples : List ℚ) (sampleRate : ℕ) (h : 0 < sampleRate) :
    (encodeWav samples sampleRate).length = 44 + samples.length * 2 ∧
    (encodeWav samples sampleRate).take 4 = strBytes "RIFF" ∧
    ((encodeWav samples sampleRate).drop 4).take 4 = toBytesLE 4 (36 + samples.length * 2) ∧
    ((encodeWav samples sampleRate).drop 8).take 4 = strBytes "WAVE" ∧
    ((encodeWav samples sampleRate).drop 12).take 4 = strBytes "fmt " ∧
    ((encodeWav samples sampleRate).drop 16).take 4 = toBytesLE 4 16 ∧
    ((encodeWav samples sampleRate).drop 20).take 2 = toBytesLE 2 1 ∧
    ((encodeWav samples sampleRate).drop 22).take 2 = toBytesLE 2 1 ∧
    ((encodeWav samples sampleRate).drop 24).take 4 = toBytesLE 4 sampleRate ∧
    ((encodeWav samples sampleRate).drop 28).take 4 = toBytesLE 4 (sampleRate * 2) ∧
    ((encodeWav samples sampleRate).drop 32).take 2 = toBytesLE 2 2 ∧
    ((encodeWav samples sampleRate).drop 34).take 2 = toBytesLE 2 16 ∧
    ((encodeWav samples sampleRate).drop 36).take 4 = strBytes "data" ∧
    ((encodeWav samples sampleRate).drop 40).take 4 = toBytesLE 4 (samples.length * 2) := by
  have hb0 : (encodeWav samples sampleRate).drop 0 =
      strBytes "RIFF" ++
      (toBytesLE 4 (36 + samples.length * 2) ++
      (strBytes "WAVE" ++
      (strBytes "fmt " ++
      (toBytesLE 4 16 ++
      (toBytesLE 2 1 ++
      (toBytesLE 2 1 ++
      (toBytesLE 4 sampleRate ++
      (toBytesLE 4 (sampleRate * 2) ++
      (toBytesLE 2 2 ++
      (toBytesLE 2 16 ++
      (strBytes "data" ++
      (toBytesLE 4 (samples.length * 2) ++
      (samples.map (fun s => int16LE (toInt16 s))).flatten)))))))))))) := by
    rw [List.drop_zero]; rfl
  obtain ⟨t1, r1⟩ := peel _ _ _ 0 4 hb0 rfl
  obtain ⟨t2, r2⟩ := peel _ _ _ _ 4 r1 (toBytesLE_length 4 _)
  obtain ⟨t3, r3⟩ := peel _ _ _ _ 4 r2 rfl
  obtain ⟨t4, r4⟩ := peel _ _ _ _ 4 r3 rfl
  obtain ⟨t5, r5⟩ := peel _ _ _ _ 4 r4 (toBytesLE_length 4 _)
  obtain ⟨t6, r6⟩ := peel _ _ _ _ 2 r5 (toBytesLE_length 2 _)
  obtain ⟨t7, r7⟩ := peel _ _ _ _ 2 r6 (toBytesLE_length 2 _)
  obtain ⟨t8, r8⟩ := peel _ _ _ _ 4 r7 (toBytesLE_length 4 _)
  obtain ⟨t9, r9⟩ := peel _ _ _ _ 4 r8 (toBytesLE_length 4 _)
  obtain ⟨t10, r10⟩ := peel _ _ _ _ 2 r9 (toBytesLE_length 2 _)
  obtain ⟨t11, r11⟩ := peel _ _ _ _ 2 r10 (toBytesLE_length 2 _)
  obtain ⟨t12, r12⟩ := peel _ _ _ _ 4 r11 rfl
  obtain ⟨t13, r13⟩ := peel _ _ _ _ 4 r12 (toBytesLE_length 4 _)
  refine ⟨encodeWav_length samples sampleRate, ?_, t2, t3, t4, t5, t6, t7, t8, t9, t10, t11,
    t12, t13⟩
  have h4 : (encodeWav samples sampleRate).take 4 = ((encodeWav samples sampleRate).drop 0).take 4 := by
    rw [List.drop_zero]
  rw [h4]; exact t1

/-- C1 witness: the empty sample array at sample rate 8000 gives a 44-byte
blob whose ChunkSize field holds 36 and whose Subchunk2Size field holds 0. -/
theorem encodeWav_header_bytes_witness :
    (encodeWav [] 8000).length = 44 ∧
    ((encodeWav [] 8000).drop 4).take 4 = toBytesLE 4 36 ∧
    ((encodeWav [] 8000).drop 40).take 4 = toBytesLE 4 0 := by
  obtain ⟨hlen0, _, hsub, _, _, _, _, _, _, _, _, _, _, hdata⟩ :=
    encodeWav_header_bytes [] 8000 (by norm_num)
  exact ⟨hlen0, hsub, hdata⟩

theorem toInt16_neg_one : toInt16 (-1) = -32768 := by
  have h1 : clamp (-1) = -1 := by
    rw [clamp]
    norm_num [min_def, max_def]
  rw [toInt16, h1, if_pos (by norm_num : (-1 : ℚ) < 0), qtrunc,
    if_neg (by norm_num : ¬(0 : ℚ) ≤ -1 * 32768)]
  rw [show ((-1 : ℚ) * 32768) = ((-32768 : ℤ) : ℚ) by norm_num, Int.ceil_intCast]

theorem toInt16_one : toInt16 1 = 32767 := by
  have h1 : clamp 1 = 1 := by
    rw [clamp]
    norm_num [min_def, max_def]
  rw [toInt16, h1, if_neg (by norm_num : ¬(1 : ℚ) < 0), qtrunc,
    if_pos (by norm_num : (0 : ℚ) ≤ 1 * 32767)]
  rw [show ((1 : ℚ) * 32767) = ((32767 : ℤ) : ℚ) by norm_num, Int.floor_intCast]

/-- C2: the 16-bit PCM value written at byte offset `44 + 2·i` is the input
sample clamped to `[-1, 1]`, scaled by 32768 when the clamped value is
negative and by 32767 otherwise, truncated toward zero; the result always
lies in `[-32768, 32767]` (no overflow), with `-1 ↦ -32768` and `1 ↦ 32767`. -/
theorem encodeWav_sample_bytes (samples : List ℚ) (sampleRate : ℕ) (i : ℕ)
    (hi : i < samples.length) :
    ((encodeWav samples sampleRate).drop (44 + 2 * i)).take 2 =
      int16LE (toInt16 (samples.getD i 0)) ∧
    toInt16 (samples.getD i 0) =
      qtrunc (if clamp (samples.getD i 0) < 0 then clamp (samples.getD i 0) * 32768
        else clamp (samples.getD i 0) * 32767) ∧
    -32768 ≤ toInt16 (samples.getD i 0) ∧ toInt16 (samples.getD i 0) ≤ 32767 ∧
    toInt16 (-1) = -32768 ∧ toInt16 1 = 32767 := by
  refine ⟨?_, ?_, ?_, ?_, ?_, ?_⟩
  · have hdrop44 : (encodeWav samples sampleRate).drop 44 =
        (samples.map (fun s => int16LE (toInt16 s))).flatten := by
      have hb0 : (encodeWav samples sampleRate).drop 0 =
          (strBytes "RIFF" ++ toBytesLE 4 (36 + samples.length * 2) ++ strBytes "WAVE" ++
            strBytes "fmt " ++ toBytesLE 4 16 ++ toBytesLE 2 1 ++ toBytesLE 2 1 ++
            toBytesLE 4 sampleRate ++ toBytesLE 4 (sampleRate * 2) ++ toBytesLE 2 2 ++
            toBytesLE 2 16 ++ strBytes "data" ++ toBytesLE 4 (samples.length * 2)) ++
          (samples.map (fun s => int16LE (toInt16 s))).flatten := by
        rw [List.drop_zero, encodeWav]
      have hlen : (strBytes "RIFF" ++ toBytesLE 4 (36 + samples.length * 2) ++ strBytes "WAVE" ++
            strBytes "fmt " ++ toBytesLE 4 16 ++ toBytesLE 2 1 ++ toBytesLE 2 1 ++
            toBytesLE 4 sampleRate ++ toBytesLE 4 (sampleRate * 2) ++ toBytesLE 2 2 ++
            toBytesLE 2 16 ++ strBytes "data" ++ toBytesLE 4 (samples.length * 2)).length = 44 := by
        simp only [List.length_append, toBytesLE_length]
        rfl
      exact (peel _ _ _ 0 44 hb0 hlen).2
    have hsplit : (encodeWav samples sampleRate).drop (44 + 2 * i) =
        ((encodeWav samples sampleRate).drop 44).drop (2 * i) := by
      rw [List.drop_drop, Nat.add_comm]
    rw [hsplit, hdrop44]
    exact pcm_extract _ (fun s => int16LE_length _) samples i hi
  · rw [toInt16, apply_ite qtrunc]
  · rw [toInt16]
    have hc1 : -1 ≤ clamp (samples.getD i 0) := le_max_left _ _
    split
    · rename_i hneg
      rw [qtrunc, if_neg (by simp only [not_le]; nlinarith)]
      have h1 : ((-32768 : ℤ) : ℚ) ≤ clamp (samples.getD i 0) * 32768 := by
        push_cast
        nlinarith
      have h2 := Int.ceil_le_ceil h1
      rwa [Int.ceil_intCast] at h2
    · rename_i hpos
      push_neg at hpos
      rw [qtrunc, if_pos (by nlinarith)]
      have h0 : (0 : ℤ) ≤ ⌊clamp (samples.getD i 0) * 32767⌋ :=
        Int.le_floor.mpr (by push_cast; nlinarith)
      linarith
  · rw [toInt16]
    have hc2 : clamp (samples.getD i 0) ≤ 1 := max_le (by norm_num) (min_le_left _ _)
    split
    · rename_i hneg
      rw [qtrunc, if_neg (by simp only [not_le]; nlinarith)]
      exact Int.ceil_le.mpr (by push_cast; nlinarith)
    · rename_i hpos
      push_neg at hpos
      rw [qtrunc, if_pos (by nlinarith)]
      have h2 := Int.floor_le_floor
        (show clamp (samples.getD i 0) * 32767 ≤ ((32767 : ℤ) : ℚ) by push_cast; nlinarith)
      rwa [Int.floor_intCast] at h2
  · exact toInt16_neg_one
  · exact toInt16_one

/-- C2 witness: in `encodeWav [-1, 1] 8000`, the sample at index 0 is stored
at offset 44 as the two's-complement bytes of `-32768`. -/
theorem encodeWav_sample_bytes_witness :
    (0 : ℕ) < ([(-1 : ℚ), 1]).length ∧
    ((encodeWav [(-1 : ℚ), 1] 8000).drop (44 + 2 * 0)).take 2 =
      int16LE (toInt16 (([(-1 : ℚ), 1]).getD 0 0)) ∧
    toInt16 (-1) = -32768 ∧ toInt16 1 = 32767 := by
  have h := encodeWav_sample_bytes [(-1 : ℚ), 1] 8000 0 (by norm_num)
  exact ⟨by norm_num, h.1, h.2.2.2.2.1, h.2.2.2.2.2⟩

/-- The `startTime` variable of the planning loop
`for (let startTime = 0; startTime < totalDuration; startTime += chunkDuration)`
after `n` iterations: it starts at 0 and each iteration adds
`chunkDuration` (no other statement modifies it, `continue` included). -/
def loopState (cd : ℚ) : ℕ → ℚ
  | 0 => 0
  | n + 1 => loopState cd n + cd

/-- The window-emitting loop of `extract`, unrolled structurally: while
`t < d` (the loop condition), emit the window `[t, min (t + cd) d)` and
advance `t` by `cd`.  The fuel argument bounds the number of iterations;
`planWindows` supplies fuel `⌈d / cd⌉.toNat`, which for `0 < cd` is exactly
the number of iterations the source loop performs before its guard fails,
so on positive `cd` this is the loop's behaviour.  (For `cd ≤ 0` the source
loop never terminates — see the `loopState` theorem for claim C7.) -/
def chunkStep (d cd : ℚ) : ℕ → ℚ → List (ℚ × ℚ)
  | 0, _ => []
  | n + 1, t => if t < d then (t, min (t + cd) d) :: chunkStep d cd n (t + cd) else []

/-- The full sequence of time windows generated by the planning loop
(before the minimum-length filter). -/
def planWindows (d cd : ℚ) : List (ℚ × ℚ) := chunkStep d cd (⌈d / cd⌉).toNat 0

/-- The windows retained after the minimum-length gate
`if (currentDuration < 0.1) continue`. -/
def planFiltered (d cd : ℚ) : List (ℚ × ℚ) :=
  (planWindows d cd).filter (fun w => decide (¬(w.2 - w.1 < 1 / 10)))

theorem chunkStep_closed (d cd : ℚ) (hcd : 0 < cd) :
    ∀ (m : ℕ) (t : ℚ), (⌈(d - t) / cd⌉).toNat = m →
      chunkStep d cd m t =
        (List.range m).map
          (fun (k : ℕ) => (t + (k : ℚ) * cd, min (t + ((k : ℚ) + 1) * cd) d)) := by
  intro m
  induction m with
  | zero => intro t _; rfl
  | succ n ih =>
      intro t hm
      have hpos : 0 < ⌈(d - t) / cd⌉ := by omega
      have hdiv : 0 < (d - t) / cd := Int.ceil_pos.mp hpos
      have hsub : 0 < d - t := by
        have hmul : (d - t) / cd * cd = d - t := div_mul_cancel₀ _ (ne_of_gt hcd)
        nlinarith [mul_pos hdiv hcd]
      have htd : t < d := by linarith
      have hnext : (⌈(d - (t + cd)) / cd⌉).toNat = n := by
        have heq : (d - (t + cd)) / cd = (d - t) / cd - 1 := by
          field_simp
          ring
        rw [heq, Int.ceil_sub_one]
        omega
      simp only [chunkStep]
      rw [if_pos htd, ih (t + cd) hnext, List.range_succ_eq_map, List.map_cons, List.map_map]
      congr 1
      · simp
      · apply List.map_congr_left
        intro k _
        simp only [Function.comp_apply, Prod.mk.injEq]
        push_cast
        refine ⟨by ring, ?_⟩
        have harg : t + cd + ((k : ℚ) + 1) * cd = t + ((k : ℚ) + 1 + 1) * cd := by ring
        rw [harg]

theorem planWindows_closed (d cd : ℚ) (hcd : 0 < cd) :
    planWindows d cd =
      (List.range (⌈d / cd⌉).toNat).map
        (fun (k : ℕ) => ((k : ℚ) * cd, min (((k : ℚ) + 1) * cd) d)) := by
  have h := chunkStep_closed d cd hcd (⌈d / cd⌉).toNat 0 (by rw [sub_zero])
  rw [planWindows, h]
  apply List.map_congr_left
  intro k _
  simp

theorem windows_start_lt (d cd : ℚ) (hcd : 0 < cd) (k : ℕ) (hk : k < (⌈d / cd⌉).toNat) :
    (k : ℚ) * cd < d := by
  have h1 : (k : ℤ) < ⌈d / cd⌉ := by omega
  have h2 : ((k : ℤ) : ℚ) < d / cd := Int.lt_ceil.mp h1
  have h3 : (k : ℚ) < d / cd := by exact_mod_cast h2
  exact (lt_div_iff₀ hcd).mp h3

theorem planWindows_pairwise_start_lt (d cd : ℚ) (hcd : 0 < cd) :
    (planWindows d cd).Pairwise (fun a b => a.1 < b.1) := by
  rw [planWindows_closed d cd hcd]
  refine List.Pairwise.map _ ?_ (List.pairwise_lt_range _)
  intro a b hab
  have h : (a : ℚ) < (b : ℚ) := by exact_mod_cast hab
  exact mul_lt_mul_of_pos_right h hcd

/-- C3: with positive `chunkDuration`, the planning loop generates exactly
the windows `[k·cd, min ((k+1)·cd) d)` for `k = 0, 1, …` (as long as
`k·cd < d`); they are ordered by strictly increasing start, pairwise
non-overlapping, contiguous, and their union is `[0, d)`; after the
minimum-length gate no retained window is shorter than 0.1 s; and for
`d ≤ 0` the loop produces no window at all. -/
theorem plan_loop_spec (d cd : ℚ) (hcd : 0 < cd) :
    planWindows d cd =
      (List.range (⌈d / cd⌉).toNat).map
        (fun (k : ℕ) => ((k : ℚ) * cd, min (((k : ℚ) + 1) * cd) d)) ∧
    (planWindows d cd).Pairwise (fun a b => a.1 < b.1) ∧
    (planWindows d cd).Pairwise (fun a b => a.2 ≤ b.1) ∧
    List.Chain' (fun a b => a.2 = b.1) (planWindows d cd) ∧
    (∀ x : ℚ, 0 ≤ x → x < d → ∃ w ∈ planWindows d cd, w.1 ≤ x ∧ x < w.2) ∧
    (∀ w ∈ planWindows d cd, 0 ≤ w.1 ∧ w.1 < w.2 ∧ w.2 ≤ d) ∧
    (∀ w ∈ planFiltered d cd, ¬(w.2 - w.1 < 1 / 10)) ∧
    (d ≤ 0 → planWindows d cd = []) := by
  have hA := planWindows_closed d cd hcd
  refine ⟨hA, planWindows_pairwise_start_lt d cd hcd, ?_, ?_, ?_, ?_, ?_, ?_⟩
  · rw [hA]
    refine List.Pairwise.map _ ?_ (List.pairwise_lt_range _)
    intro a b hab
    have h1 : (a : ℚ) + 1 ≤ (b : ℚ) := by exact_mod_cast hab
    exact le_trans (min_le_left _ _) (mul_le_mul_of_nonneg_right h1 (le_of_lt hcd))
  · rw [hA, List.chain'_map]
    cases hn : (⌈d / cd⌉).toNat with
    | zero => simp
    | succ m =>
        rw [List.chain'_range_succ]
        intro i him
        have hlt : ((i : ℕ) + 1 : ℚ) * cd < d := by
          have := windows_start_lt d cd hcd (i + 1) (by omega)
          push_cast at this ⊢
          linarith
        have hmin : min (((i : ℚ) + 1) * cd) d = ((i : ℚ) + 1) * cd := by
          apply min_eq_left
          push_cast at hlt
          linarith
        simp only [hmin]
        push_cast
        ring
  · intro x hx0 hxd
    have hfl0 : 0 ≤ ⌊x / cd⌋ := Int.floor_nonneg.mpr (div_nonneg hx0 (le_of_lt hcd))
    have hcast : ((⌊x / cd⌋.toNat : ℤ)) = ⌊x / cd⌋ := Int.toNat_of_nonneg hfl0
    have hlow : ((⌊x / cd⌋.toNat : ℚ)) * cd ≤ x := by
      have h1 : ((⌊x / cd⌋ : ℚ)) ≤ x / cd := Int.floor_le _
      have h2 : ((⌊x / cd⌋.toNat : ℚ)) ≤ x / cd := by
        rw [show ((⌊x / cd⌋.toNat : ℚ)) = ((⌊x / cd⌋.toNat : ℤ) : ℚ) by push_cast; ring, hcast]
        exact h1
      exact (le_div_iff₀ hcd).mp h2
    have hhigh : x < ((⌊x / cd⌋.toNat : ℚ) + 1) * cd := by
      have h1 : x / cd < ⌊x / cd⌋ + 1 := Int.lt_floor_add_one _
      have h2 : x / cd < ((⌊x / cd⌋.toNat : ℚ)) + 1 := by
        rw [show ((⌊x / cd⌋.toNat : ℚ)) = ((⌊x / cd⌋.toNat : ℤ) : ℚ) by push_cast; ring, hcast]
        exact_mod_cast h1
      exact (div_lt_iff₀ hcd).mp h2
    have hk : ⌊x / cd⌋.toNat < (⌈d / cd⌉).toNat := by
      have h1 : x / cd < d / cd := (div_lt_div_iff_of_pos_right hcd).mpr hxd
      have h2 : ((⌊x / cd⌋ : ℚ)) < ((⌈d / cd⌉ : ℚ)) :=
        lt_of_le_of_lt (Int.floor_le _) (lt_of_lt_of_le h1 (Int.le_ceil _))
      have h3 : ⌊x / cd⌋ < ⌈d / cd⌉ := by exact_mod_cast h2
      omega
    refine ⟨((⌊x / cd⌋.toNat : ℚ) * cd, min ((((⌊x / cd⌋.toNat : ℕ) : ℚ) + 1) * cd) d), ?_, hlow, ?_⟩
    · rw [hA]
      exact List.mem_map_of_mem _ (List.mem_range.mpr hk)
    · exact lt_min hhigh hxd
  · intro w hw
    rw [hA] at hw
    obtain ⟨k, hkmem, rfl⟩ := List.mem_map.mp hw
    dsimp only
    refine ⟨mul_nonneg (Nat.cast_nonneg k) (le_of_lt hcd), ?_, min_le_right _ _⟩
    apply lt_min
    · nlinarith [Nat.cast_nonneg (α := ℚ) k]
    · exact windows_start_lt d cd hcd k (List.mem_range.mp hkmem)
  · intro w hw
    have h2 := (List.mem_filter.mp hw).2
    simpa using h2
  · intro hd0
    have h1 : d / cd ≤ 0 := div_nonpos_iff.mpr (Or.inr ⟨hd0, le_of_lt hcd⟩)
    have h2 : ⌈d / cd⌉ ≤ 0 := Int.ceil_le.mpr (by exact_mod_cast h1)
    have h3 : (⌈d / cd⌉).toNat = 0 := by omega
    rw [hA, h3]
    rfl

/-- C3 witness: at `d = 1`, `cd = 1` the planner generates the single
window `[0, 1)` and all the stated ordering properties hold for it. -/
theorem plan_loop_spec_witness :
    (0 : ℚ) < 1 ∧ planWindows 1 1 = [(0, 1)] ∧
    (planWindows 1 1).Pairwise (fun a b => a.1 < b.1) := by
  have h := plan_loop_spec 1 1 (by norm_num)
  refine ⟨by norm_num, ?_, h.2.1⟩
  have hn : (⌈(1 : ℚ) / 1⌉).toNat = 1 := by norm_num [Int.ceil_eq_iff]
  have hr : List.range 1 = [0] := rfl
  rw [h.1, hn, hr]
  norm_num

/-- The silence-gate loop of `extract`: the flag starts `true` and is set
to `false` as soon as some `Math.abs(monoChannel[i]) > SILENCE_THRESHOLD`,
so the result is `true` exactly when no sample exceeds the threshold. -/
def isSilent (samples : List ℚ) (threshold : ℚ) : Bool :=
  samples.all (fun x => !decide (threshold < |x|))

/-- C4: the silence gate returns `true` iff every sample's absolute value
is at most the threshold; in particular an all-zero buffer and a buffer
whose maximum absolute value equals the threshold exactly are silent at
the code's threshold 0.01, while a buffer with one sample strictly above
it is not. -/
theorem isSilent_spec (samples : List ℚ) (threshold : ℚ) :
    (isSilent samples threshold = true ↔ ∀ x ∈ samples, |x| ≤ threshold) ∧
    ((∀ x ∈ samples, x = 0) → isSilent samples (1 / 100) = true) ∧
    ((∀ x ∈ samples, |x| ≤ 1 / 100) → isSilent samples (1 / 100) = true) ∧
    ((∃ x ∈ samples, 1 / 100 < |x|) → isSilent samples (1 / 100) = false) := by
  have hiff : ∀ t : ℚ, (isSilent samples t = true ↔ ∀ x ∈ samples, |x| ≤ t) := by
    intro t
    rw [isSilent, List.all_eq_true]
    constructor
    · intro h x hx
      have := h x hx
      simp only [Bool.not_eq_true', decide_eq_false_iff_not, not_lt] at this
      exact this
    · intro h x hx
      simp only [Bool.not_eq_true', decide_eq_false_iff_not, not_lt]
      exact h x hx
  refine ⟨hiff threshold, ?_, ?_, ?_⟩
  · intro h
    exact (hiff (1 / 100)).mpr (fun x hx => by rw [h x hx]; norm_num)
  · intro h
    exact (hiff (1 / 100)).mpr h
  · intro h
    obtain ⟨x, hx, hgt⟩ := h
    by_contra hcon
    rw [Bool.not_eq_false] at hcon
    have := (hiff (1 / 100)).mp hcon x hx
    linarith

/-- C4 witness: the all-zero buffer and a max-equals-threshold buffer are
silent, a buffer with a sample strictly above 0.01 is not. -/
theorem isSilent_spec_witness :
    isSilent [0, 0] (1 / 100) = true ∧
    isSilent [1 / 100] (1 / 100) = true ∧
    isSilent [0, 1 / 50] (1 / 100) = false := by
  refine ⟨?_, ?_, ?_⟩
  · apply (isSilent_spec [0, 0] (1 / 100)).2.1
    intro x hx
    simp at hx
    tauto
  · apply (isSilent_spec [1 / 100] (1 / 100)).2.2.1
    intro x hx
    simp at hx
    rw [hx]
    rw [abs_of_nonneg] <;> norm_num
  · apply (isSilent_spec [0, 1 / 50] (1 / 100)).2.2.2
    refine ⟨1 / 50, by simp, ?_⟩
    rw [abs_of_nonneg] <;> norm_num

/-- The view `Float32Array.subarray(startOffset, endOffset)`: the elements from
index `s` (inclusive) to `e` (exclusive), clamped to the array bounds. -/
def subarray (l : List ℚ) (s e : ℕ) : List ℚ := (l.drop s).take (e - s)

/-- The inner accumulation loop
`monoChannel[i] += channelData[i] / numberOfChannels`
(for `i < channelData.length`): add the second list pointwise onto the
first, leaving the accumulator's tail unchanged. -/
def accAdd : List ℚ → List ℚ → List ℚ
  | acc, [] => acc
  | [], _ => []
  | a :: acc, b :: con => (a + b) :: accAdd acc con

/-- The downmix loop of `extract` for the window with sample offsets
`[s, e)`: start from `frameCount = e - s` zeros and, for each channel,
accumulate `channel.subarray(s, e)[i] / numberOfChannels`.
`numberOfChannels` equals `channels.length`, since the caller posts exactly
one sample array per channel to the worker. -/
def downmix (channels : List (List ℚ)) (s e : ℕ) : List ℚ :=
  channels.foldl
    (fun acc ch => accAdd acc ((subarray ch s e).map (fun x => x / (channels.length : ℚ))))
    (List.replicate (e - s) 0)

theorem accAdd_length (a : List ℚ) : ∀ b : List ℚ, (accAdd a b).length = a.length := by
  induction a with
  | nil => intro b; cases b <;> rfl
  | cons x xs ih =>
      intro b
      cases b with
      | nil => rfl
      | cons y ys => simp [accAdd, ih ys]

theorem accAdd_getD (a : List ℚ) :
    ∀ (b : List ℚ), b.length ≤ a.length → ∀ i : ℕ,
      (accAdd a b).getD i 0 = a.getD i 0 + b.getD i 0 := by
  induction a with
  | nil =>
      intro b hb i
      have : b = [] := List.eq_nil_of_length_eq_zero (Nat.le_zero.mp hb)
      subst this
      simp [accAdd]
  | cons x xs ih =>
      intro b hb i
      cases b with
      | nil => simp [accAdd]
      | cons y ys =>
          cases i with
          | zero => simp [accAdd]
          | succ j =>
              simp only [accAdd, List.getD_cons_succ]
              exact ih ys (by simpa using hb) j

theorem foldl_accAdd_length (F : List ℚ → List ℚ) :
    ∀ (cs : List (List ℚ)) (acc : List ℚ),
      (cs.foldl (fun a x => accAdd a (F x)) acc).length = acc.length := by
  intro cs
  induction cs with
  | nil => intro acc; rfl
  | cons c rest ih =>
      intro acc
      rw [List.foldl_cons, ih, accAdd_length]

theorem downmix_length (channels : List (List ℚ)) (s e : ℕ) :
    (downmix channels s e).length = e - s := by
  rw [downmix, foldl_accAdd_length, List.length_replicate]

theorem subarray_length_le (l : List ℚ) (s e : ℕ) : (subarray l s e).length ≤ e - s := by
  rw [subarray, List.length_take]
  exact min_le_left _ _

theorem accAdd_replicate_zero :
    ∀ (v : List ℚ) (m : ℕ), v.length ≤ m →
      accAdd (List.replicate m 0) v = v ++ List.replicate (m - v.length) 0 := by
  intro v
  induction v with
  | nil => intro m _; cases m <;> simp [accAdd, List.replicate_succ]
  | cons b bs ih =>
      intro m hm
      cases m with
      | zero => simp at hm
      | succ k =>
          rw [List.replicate_succ]
          simp only [accAdd, zero_add, List.cons_append]
          rw [ih k (by simpa using hm)]
          have harith : k - bs.length = k + 1 - (b :: bs).length := by
            simp only [List.length_cons]
            omega
          rw [harith]

theorem getD_replicate_zero (m i : ℕ) : (List.replicate m (0 : ℚ)).getD i 0 = 0 := by
  rcases lt_or_le i m with h | h
  · rw [List.getD_eq_getElem _ _ (by simpa using h)]
    simp
  · rw [List.getD_eq_default _ _ (by simpa using h)]

theorem fold_accAdd_replicate (F : List ℚ → List ℚ) (c : List ℚ) :
    ∀ (m : ℕ) (acc : List ℚ), (F c).length ≤ acc.length → ∀ i : ℕ,
      ((List.replicate m c).foldl (fun a x => accAdd a (F x)) acc).getD i 0
        = acc.getD i 0 + m * ((F c).getD i 0) := by
  intro m
  induction m with
  | zero => intro acc _ i; simp
  | succ k ih =>
      intro acc hacc i
      rw [List.replicate_succ, List.foldl_cons]
      rw [ih (accAdd acc (F c)) (by rw [accAdd_length]; exact hacc) i]
      rw [accAdd_getD acc (F c) hacc i]
      push_cast
      ring

theorem ext_getD_zero (a b : List ℚ) (hlen : a.length = b.length)
    (h : ∀ i, a.getD i 0 = b.getD i 0) : a = b := by
  apply List.ext_getElem hlen
  intro i h1 h2
  have hi := h i
  rwa [List.getD_eq_getElem _ _ h1, List.getD_eq_getElem _ _ h2] at hi

theorem subarray_length_of_le (l : List ℚ) (s e : ℕ) (hse : s ≤ e) (he : e ≤ l.length) :
    (subarray l s e).length = e - s := by
  rw [subarray, List.length_take, List.length_drop]
  omega

theorem subarray_getD (l : List ℚ) (s e i : ℕ) (hi : i < e - s) (hie : s + i < l.length) :
    (subarray l s e).getD i 0 = l.getD (s + i) 0 := by
  rw [subarray]
  have h1 : i < ((l.drop s).take (e - s)).length := by
    rw [List.length_take, List.length_drop]
    omega
  rw [List.getD_eq_getElem _ _ h1, List.getD_eq_getElem _ _ hie]
  simp [List.getElem_take, List.getElem_drop]

theorem downmix_single (ch : List ℚ) (s e : ℕ) (hse : s ≤ e) (he : e ≤ ch.length) :
    downmix [ch] s e = subarray ch s e := by
  rw [downmix, List.foldl_cons, List.foldl_nil]
  have hlen : (subarray ch s e).length = e - s := subarray_length_of_le ch s e hse he
  have hmap : (subarray ch s e).map
      (fun x => x / (([ch] : List (List ℚ)).length : ℚ)) = subarray ch s e := by
    simp
  rw [hmap, accAdd_replicate_zero _ _ (le_of_eq hlen), hlen]
  simp

theorem downmix_replicate (ch : List ℚ) (n : ℕ) (hn : 0 < n) (s e : ℕ) (hse : s ≤ e)
    (he : e ≤ ch.length) :
    downmix (List.replicate n ch) s e = downmix [ch] s e := by
  apply ext_getD_zero
  · rw [downmix_length, downmix_length]
  · intro i
    have hflen : ((fun c => (subarray c s e).map
        (fun x => x / ((List.replicate n ch).length : ℚ))) ch).length ≤
        (List.replicate (e - s) (0 : ℚ)).length := by
      simp only [List.length_map, List.length_replicate]
      exact subarray_length_le ch s e
    have hL := fold_accAdd_replicate
      (fun c => (subarray c s e).map (fun x => x / ((List.replicate n ch).length : ℚ)))
      ch n (List.replicate (e - s) 0) hflen i
    simp only at hL
    rw [downmix_single ch s e hse he, downmix, hL, getD_replicate_zero, zero_add,
      List.length_replicate]
    rcases lt_or_le i (subarray ch s e).length with hi | hi
    · have h1 : ((subarray ch s e).map (fun x => x / (n : ℚ))).getD i 0 =
          (subarray ch s e).getD i 0 / (n : ℚ) := by
        rw [List.getD_eq_getElem _ _ (by simpa using hi), List.getElem_map,
          List.getD_eq_getElem _ _ hi]
      rw [h1, mul_comm, div_mul_cancel₀ _ (ne_of_gt (Nat.cast_pos.mpr hn))]
    · have h1 : ((subarray ch s e).map (fun x => x / (n : ℚ))).getD i 0 = 0 :=
        List.getD_eq_default _ _ (by simpa using hi)
      have h2 : (subarray ch s e).getD i 0 = 0 := List.getD_eq_default _ _ hi
      rw [h1, h2, mul_zero]

/-- C5: downmixing a single-channel input is the identity on the window's
sample range (`output[i] = channel[0][startOffset + i]` for every `i`), and
downmixing `n` pointwise-identical channels yields the same samples as
downmixing that channel alone. -/
theorem downmix_spec (ch : List ℚ) (s e n : ℕ) (hn : 0 < n) (hse : s ≤ e)
    (he : e ≤ ch.length) :
    downmix [ch] s e = subarray ch s e ∧
    (∀ i, i < e - s → (downmix [ch] s e).getD i 0 = ch.getD (s + i) 0) ∧
    downmix (List.replicate n ch) s e = downmix [ch] s e := by
  refine ⟨downmix_single ch s e hse he, ?_, downmix_replicate ch n hn s e hse he⟩
  intro i hi
  rw [downmix_single ch s e hse he]
  exact subarray_getD ch s e i hi (by omega)

/-- C5 witness: on the concrete channel `[1, 2, 3, 4]` with window offsets
`[1, 3)`, single-channel downmix is the identity and two identical channels
downmix to the same result. -/
theorem downmix_spec_witness :
    (0 : ℕ) < 2 ∧ (1 : ℕ) ≤ 3 ∧ (3 : ℕ) ≤ ([(1 : ℚ), 2, 3, 4]).length ∧
    downmix [[(1 : ℚ), 2, 3, 4]] 1 3 = subarray [(1 : ℚ), 2, 3, 4] 1 3 ∧
    downmix (List.replicate 2 [(1 : ℚ), 2, 3, 4]) 1 3 = downmix [[(1 : ℚ), 2, 3, 4]] 1 3 := by
  have h := downmix_spec [(1 : ℚ), 2, 3, 4] 1 3 2 (by norm_num) (by norm_num) (by simp)
  exact ⟨by norm_num, by norm_num, by simp, h.1, h.2.2⟩

/-- The decoded-audio message the main thread posts to the worker:
one sample array per channel (so `numberOfChannels = channels.length`),
the sample rate, and the decoder's reported duration. -/
structure AudioData where
  channels : List (List ℚ)
  sampleRate : ℕ
  duration : ℚ

/-- The output record pushed by the worker's `extract`:
`{ startTime, duration, base64 }`.  The payload is kept here as the WAV
byte sequence produced by `encodeWav`; `blobToBase64` is a platform
`FileReader` re-encoding of those same bytes into text. -/
structure Chunk where
  startTime : ℚ
  duration : ℚ
  wav : List ℕ

/-- The mono buffer `extract` builds for window `w`:
`startOffset = Math.floor(startTime * sampleRate)`,
`endOffset = Math.floor(endTime * sampleRate)`, then the downmix loop. -/
def monoForWindow (a : AudioData) (w : ℚ × ℚ) : List ℚ :=
  downmix a.channels (⌊w.1 * a.sampleRate⌋).toNat (⌊w.2 * a.sampleRate⌋).toNat

/-- One iteration of `extract`'s loop body for window `w`: `continue`
(= `none`) when the window is shorter than 0.1 s, when
`frameCount = endOffset - startOffset` is non-positive, or when the mono
buffer is silent; otherwise push `{ startTime, duration, wav }`. -/
def processWindow (a : AudioData) (w : ℚ × ℚ) : Option Chunk :=
  if w.2 - w.1 < 1 / 10 then none
  else if ⌊w.2 * a.sampleRate⌋ - ⌊w.1 * a.sampleRate⌋ ≤ 0 then none
  else if isSilent (monoForWindow a w) (1 / 100) then none
  else some ⟨w.1, w.2 - w.1, encodeWav (monoForWindow a w) a.sampleRate⟩

/-- The worker function `extract(audioData, chunkDuration)` in
`src/unnamed/part_000`: run the planning loop over the total duration and
process each window in order, collecting the pushed chunks. -/
def extract (a : AudioData) (cd : ℚ) : List Chunk :=
  (planWindows a.duration cd).filterMap (processWindow a)

theorem processWindow_fields (a : AudioData) (w : ℚ × ℚ) (c : Chunk)
    (h : processWindow a w = some c) :
    c.startTime = w.1 ∧ c.duration = w.2 - w.1 ∧
    c.wav = encodeWav (monoForWindow a w) a.sampleRate ∧
    ¬(⌊w.2 * a.sampleRate⌋ - ⌊w.1 * a.sampleRate⌋ ≤ 0) := by
  rw [processWindow] at h
  split_ifs at h with h1 h2 h3
  rw [Option.some_inj] at h
  subst h
  exact ⟨rfl, rfl, rfl, h2⟩

theorem chunkStep_nil_of_nonpos (d cd : ℚ) (hd : d ≤ 0) :
    ∀ m : ℕ, chunkStep d cd m 0 = [] := by
  intro m
  cases m with
  | zero => rfl
  | succ k =>
      simp only [chunkStep]
      rw [if_neg (by linarith)]

theorem planWindows_nil_of_cd_nonpos (d cd : ℚ) (hcd : cd ≤ 0) :
    planWindows d cd = [] := by
  rcases le_or_lt d 0 with hd | hd
  · exact chunkStep_nil_of_nonpos d cd hd _
  · rcases eq_or_lt_of_le hcd with hcd0 | hcdneg
    · rw [planWindows, hcd0, div_zero]
      simp [chunkStep]
    · have h1 : d / cd < 0 := div_neg_of_pos_of_neg hd hcdneg
      have h2 : ⌈d / cd⌉ ≤ 0 := Int.ceil_le.mpr (by exact_mod_cast le_of_lt h1)
      have h3 : (⌈d / cd⌉).toNat = 0 := by omega
      rw [planWindows, h3]
      rfl

theorem mem_planWindows_start (d cd : ℚ) (w : ℚ × ℚ) (hw : w ∈ planWindows d cd) :
    0 ≤ w.1 ∧ (0 < cd → ∃ k : ℕ, w.1 = (k : ℚ) * cd ∧ (k : ℚ) * cd < d) := by
  rcases le_or_lt cd 0 with hcd | hcd
  · rw [planWindows_nil_of_cd_nonpos d cd hcd] at hw
    simp at hw
  · rw [planWindows_closed d cd hcd] at hw
    obtain ⟨k, hk, rfl⟩ := List.mem_map.mp hw
    refine ⟨mul_nonneg (Nat.cast_nonneg k) (le_of_lt hcd), ?_⟩
    intro _
    exact ⟨k, rfl, windows_start_lt d cd hcd k (List.mem_range.mp hk)⟩

/-- C7: the code has no parameter validation at all — with
`chunkDuration ≤ 0` and a positive duration the loop guard
`startTime < totalDuration` still holds after every number of iterations,
so the planning loop runs forever instead of failing fast (no
`InvalidParameterError`, or any error, is ever raised on this path). -/
theorem extract_nonpositive_cd_loops (d cd : ℚ) (hcd : cd ≤ 0) (hd : 0 < d) :
    ∀ n : ℕ, loopState cd n < d := by
  intro n
  induction n with
  | zero =>
      rw [loopState]
      exact hd
  | succ k ih =>
      rw [loopState]
      linarith

/-- C7 witness: with `chunkDuration = 0` and duration 1 the loop guard
still holds after 5 iterations. -/
theorem extract_nonpositive_cd_loops_witness :
    (0 : ℚ) ≤ 0 ∧ (0 : ℚ) < 1 ∧ loopState 0 5 < 1 :=
  ⟨le_refl 0, by norm_num, extract_nonpositive_cd_loops 1 0 (le_refl 0) (by norm_num) 5⟩

/-- The empty-result guard of `handleGenerateClick` in `src/App.tsx`:
`if (audioChunks.length === 0) throw new Error(...)` with one fixed
generic message. -/
def emptyResultMessage : String :=
  "Could not extract any audio from the file. The file might be silent, too short, or in an unsupported format."

/-- The caller-side check, as an explicit error path: an empty chunk list
aborts with the generic message, a non-empty one is passed through. -/
def checkAudioChunks (chunks : List Chunk) : Except String (List Chunk) :=
  if chunks.length = 0 then Except.error emptyResultMessage else Except.ok chunks

/-- C8: the caller raises the empty-result failure — always with the same
single generic message, which does not distinguish the silent/too-short/
zero-duration causes — exactly when the extraction result sequence is
empty; a non-empty result raises nothing and is passed through. -/
theorem checkAudioChunks_spec (chunks : List Chunk) :
    (checkAudioChunks chunks = Except.error emptyResultMessage ↔ chunks = []) ∧
    (checkAudioChunks chunks = Except.ok chunks ↔ chunks ≠ []) := by
  rcases eq_or_ne chunks [] with h | h
  · subst h
    simp [checkAudioChunks]
  · have hlen : ¬(chunks.length = 0) := by simpa using h
    rw [checkAudioChunks, if_neg hlen]
    simp [h]

/-- C8 witness: the empty chunk list raises exactly the generic message,
and a non-empty list raises nothing. -/
theorem checkAudioChunks_spec_witness :
    checkAudioChunks [] = Except.error emptyResultMessage ∧
    checkAudioChunks [⟨0, 1, []⟩] = Except.ok [⟨0, 1, []⟩] :=
  ⟨(checkAudioChunks_spec []).1.mpr rfl,
   (checkAudioChunks_spec [⟨0, 1, []⟩]).2.mpr (by simp)⟩

/-- C9: the chunks `extract` returns are in strictly increasing
`startTime` order; every chunk's `startTime` is `k·chunkDuration` for a
non-negative integer `k` with `k·chunkDuration < duration`; and every
chunk keeps the `startTime` and `duration` of the window it came from, so
dropped windows leave gaps and survivors are never renumbered or
time-shifted. -/
theorem extract_order_spec (a : AudioData) (cd : ℚ) (hcd : 0 < cd) :
    (extract a cd).Pairwise (fun c c' => c.startTime < c'.startTime) ∧
    (∀ c ∈ extract a cd, ∃ k : ℕ,
      c.startTime = (k : ℚ) * cd ∧ (k : ℚ) * cd < a.duration) ∧
    (∀ c ∈ extract a cd, ∃ w ∈ planWindows a.duration cd,
      c.startTime = w.1 ∧ c.duration = w.2 - w.1) := by
  refine ⟨?_, ?_, ?_⟩
  · rw [extract]
    apply List.Pairwise.filterMap (processWindow a)
    · intro w w' hww c hc c' hc'
      rw [Option.mem_def] at hc hc'
      rw [(processWindow_fields a w c hc).1, (processWindow_fields a w' c' hc').1]
      exact hww
    · exact planWindows_pairwise_start_lt a.duration cd hcd
  · intro c hc
    rw [extract] at hc
    obtain ⟨w, hw, hpw⟩ := List.mem_filterMap.mp hc
    obtain ⟨k, hk1, hk2⟩ := (mem_planWindows_start a.duration cd w hw).2 hcd
    exact ⟨k, by rw [(processWindow_fields a w c hpw).1, hk1], hk2⟩
  · intro c hc
    rw [extract] at hc
    obtain ⟨w, hw, hpw⟩ := List.mem_filterMap.mp hc
    exact ⟨w, hw, (processWindow_fields a w c hpw).1, (processWindow_fields a w c hpw).2.1⟩

/-- C10: `extract` never emits a chunk with an empty PCM payload: windows
whose `frameCount = ⌊endTime·sr⌋ − ⌊startTime·sr⌋` is zero or negative
are skipped by the `frameCount <= 0` guard before downmixing, so every
emitted chunk's WAV byte sequence is strictly longer than the 44-byte
header. -/
theorem extract_wav_nonempty (a : AudioData) (cd : ℚ) (c : Chunk) (hc : c ∈ extract a cd) :
    44 < c.wav.length := by
  rw [extract] at hc
  obtain ⟨w, hw, hpw⟩ := List.mem_filterMap.mp hc
  obtain ⟨_, _, hwav, hfc⟩ := processWindow_fields a w c hpw
  have hw1 : 0 ≤ w.1 := (mem_planWindows_start a.duration cd w hw).1
  have hs0 : 0 ≤ ⌊w.1 * a.sampleRate⌋ :=
    Int.floor_nonneg.mpr (mul_nonneg hw1 (Nat.cast_nonneg _))
  have hlen : (monoForWindow a w).length =
      (⌊w.2 * a.sampleRate⌋).toNat - (⌊w.1 * a.sampleRate⌋).toNat := by
    rw [monoForWindow, downmix_length]
  have hpos : 0 < (monoForWindow a w).length := by
    rw [hlen]
    omega
  rw [hwav, encodeWav_length]
  omega

/-- C9 witness: a concrete mono file (4 samples of value 1 at 2 Hz, 2 s)
split with `chunkDuration = 1` satisfies the ordering invariants. -/
theorem extract_order_spec_witness :
    (0 : ℚ) < 1 ∧
    (extract ⟨[[1, 1, 1, 1]], 2, 2⟩ 1).Pairwise
      (fun c c' => c.startTime < c'.startTime) :=
  ⟨by norm_num, (extract_order_spec ⟨[[1, 1, 1, 1]], 2, 2⟩ 1 (by norm_num)).1⟩

theorem planWindows_unit : planWindows (1 : ℚ) 1 = [(0, 1)] := by
  have hfuel : (⌈(1 : ℚ) / 1⌉).toNat = 1 := by norm_num [Int.ceil_eq_iff]
  rw [planWindows_closed _ _ (by norm_num), hfuel]
  have hr : List.range 1 = [0] := rfl
  rw [hr]
  norm_num

theorem mono_unit : monoForWindow ⟨[[1]], 1, 1⟩ ((0 : ℚ), (1 : ℚ)) = [1] := by
  have h1 : (⌊(0 : ℚ) * ((1 : ℕ) : ℚ)⌋).toNat = 0 := by norm_num
  have h2 : (⌊(1 : ℚ) * ((1 : ℕ) : ℚ)⌋).toNat = 1 := by norm_num
  show downmix [[1]] (⌊(0 : ℚ) * ((1 : ℕ) : ℚ)⌋).toNat (⌊(1 : ℚ) * ((1 : ℕ) : ℚ)⌋).toNat = [1]
  rw [h1, h2, downmix, List.foldl_cons, List.foldl_nil]
  norm_num [subarray, accAdd, List.replicate]

theorem processWindow_unit :
    processWindow ⟨[[1]], 1, 1⟩ ((0 : ℚ), (1 : ℚ)) =
      some ⟨0, 1, encodeWav [1] 1⟩ := by
  rw [processWindow]
  rw [if_neg (by norm_num)]
  rw [if_neg (by norm_num)]
  rw [if_neg (by rw [mono_unit]; simp [isSilent, abs_one]; norm_num)]
  rw [mono_unit]
  norm_num

theorem extract_unit :
    extract ⟨[[1]], 1, 1⟩ 1 = [⟨0, 1, encodeWav [1] 1⟩] := by
  rw [extract]
  show (planWindows (1 : ℚ) 1).filterMap (processWindow ⟨[[1]], 1, 1⟩) = _
  rw [planWindows_unit]
  simp [List.filterMap, processWindow_unit]

/-- C10 witness: the single chunk extracted from a 1-sample file has a WAV
payload longer than the bare 44-byte header. -/
theorem extract_wav_nonempty_witness :
    (⟨0, 1, encodeWav [1] 1⟩ : Chunk) ∈ extract ⟨[[1]], 1, 1⟩ 1 ∧
    44 < (encodeWav [(1 : ℚ)] 1).length := by
  have hmem : (⟨0, 1, encodeWav [1] 1⟩ : Chunk) ∈ extract ⟨[[1]], 1, 1⟩ 1 := by
    rw [extract_unit]
    simp
  exact ⟨hmem, extract_wav_nonempty ⟨[[1]], 1, 1⟩ 1 _ hmem⟩

theorem planWindows_low_rate :
    planWindows ((81 / 200 : ℚ)) (59 / 200) = [(0, 59 / 200), (59 / 200, 81 / 200)] := by
  have hq : (81 / 200 : ℚ) / (59 / 200) = 81 / 59 := by norm_num
  have hceil : (⌈(81 / 59 : ℚ)⌉) = 2 := by
    rw [Int.ceil_eq_iff]
    norm_num
  have hfuel : (⌈(81 / 200 : ℚ) / (59 / 200)⌉).toNat = 2 := by
    rw [hq, hceil]
    rfl
  rw [planWindows_closed _ _ (by norm_num), hfuel]
  have hr : List.range 2 = [0, 1] := rfl
  rw [hr]
  norm_num [min_def]

/-- C6 counterexample: at sample rate 10 the pipeline retains the window
`[0.295, 0.405)` (duration 0.11 ≥ 0.1) when planning duration 0.405 with
chunk duration 0.295; the mono buffer built for it has
`⌊4.05⌋ − ⌊2.95⌋ = 2` samples, whereas `round((0.405 − 0.295)·10)
= round(1.1) = 1`, so the MonoChunk length is not
`round((endTime − startTime)·sampleRate)`. -/
theorem monoChunk_round_counterexample :
    ((59 / 200 : ℚ), (81 / 200 : ℚ)) ∈
      planWindows ((⟨[[1, 1, 1, 1, 1]], 10, 81 / 200⟩ : AudioData).duration) (59 / 200) ∧
    ¬((81 / 200 : ℚ) - 59 / 200 < 1 / 10) ∧
    (monoForWindow ⟨[[1, 1, 1, 1, 1]], 10, 81 / 200⟩ (59 / 200, 81 / 200)).length = 2 ∧
    round (((81 / 200 : ℚ) - 59 / 200) *
      ((⟨[[1, 1, 1, 1, 1]], 10, 81 / 200⟩ : AudioData).sampleRate : ℚ)) = 1 ∧
    (monoForWindow ⟨[[1, 1, 1, 1, 1]], 10, 81 / 200⟩ (59 / 200, 81 / 200)).length ≠
      (round (((81 / 200 : ℚ) - 59 / 200) *
        ((⟨[[1, 1, 1, 1, 1]], 10, 81 / 200⟩ : AudioData).sampleRate : ℚ))).toNat := by
  have hlen : (monoForWindow ⟨[[1, 1, 1, 1, 1]], 10, 81 / 200⟩ (59 / 200, 81 / 200)).length
      = 2 := by
    rw [monoForWindow, downmix_length]
    norm_num
    omega
  have hround : round (((81 / 200 : ℚ) - 59 / 200) * ((10 : ℕ) : ℚ)) = 1 := by
    norm_num [round_eq]
  refine ⟨?_, by norm_num, hlen, hround, ?_⟩
  · show ((59 / 200 : ℚ), (81 / 200 : ℚ)) ∈ planWindows ((81 / 200 : ℚ)) (59 / 200)
    rw [planWindows_low_rate]
    simp
  · rw [hlen]
    show (2 : ℕ) ≠ (round (((81 / 200 : ℚ) - 59 / 200) * ((10 : ℕ) : ℚ))).toNat
    rw [hround]
    norm_num

/-- C6 (amended): the mono buffer built for a window processed by the
pipeline has length `⌊endTime·sampleRate⌋.toNat − ⌊startTime·sampleRate⌋.toNat`
(the code's `frameCount = endOffset − startOffset`), not
`round((endTime − startTime)·sampleRate)`. -/
theorem monoForWindow_length (a : AudioData) (cd : ℚ) (w : ℚ × ℚ)
    (hw : w ∈ planWindows a.duration cd) :
    (monoForWindow a w).length =
      (⌊w.2 * a.sampleRate⌋).toNat - (⌊w.1 * a.sampleRate⌋).toNat := by
  rw [monoForWindow, downmix_length]

/-- C6 witness: the amended length formula evaluated on the retained
window `[0.295, 0.405)` at 10 Hz gives `4 − 2 = 2` samples. -/
theorem monoForWindow_length_witness :
    ((59 / 200 : ℚ), (81 / 200 : ℚ)) ∈
      planWindows ((⟨[[1, 1, 1, 1, 1]], 10, 81 / 200⟩ : AudioData).duration) (59 / 200) ∧
    (monoForWindow ⟨[[1, 1, 1, 1, 1]], 10, 81 / 200⟩ (59 / 200, 81 / 200)).length =
      (⌊(81 / 200 : ℚ) * ((10 : ℕ) : ℚ)⌋).toNat - (⌊(59 / 200 : ℚ) * ((10 : ℕ) : ℚ)⌋).toNat := by
  have hmem : ((59 / 200 : ℚ), (81 / 200 : ℚ)) ∈
      planWindows ((⟨[[1, 1, 1, 1, 1]], 10, 81 / 200⟩ : AudioData).duration) (59 / 200) := by
    show ((59 / 200 : ℚ), (81 / 200 : ℚ)) ∈ planWindows ((81 / 200 : ℚ)) (59 / 200)
    rw [planWindows_low_rate]
    simp
  exact ⟨hmem, monoForWindow_length ⟨[[1, 1, 1, 1, 1]], 10, 81 / 200⟩ (59 / 200)
    (59 / 200, 81 / 200) hmem⟩

end AudioPipeline
